import Mathlib

/-!
Verification development for the n-body-sim repository.

The repository computes 2-D Newtonian gravitational accelerations (a direct
pairwise sum in src/direct_sum.py and a Barnes-Hut quadtree in
src/barnes_hut.py), advances trajectories with several explicit integrators
(src/integrators.py, wrapped by the solver decorator of src/utils.py), and
computes kinetic/potential energy diagnostics (src/utils.py).

Embedding conventions:
* Machine floats are modelled by exact rationals.  The two transcendental
  scalar maps of the source, namely t ↦ t ** -1.5 (inverse cube of a norm,
  applied to a squared norm) and the square root np.sqrt, are not rational;
  they are kept abstract as explicit function parameters named pw and sq.
  Every theorem below is stated for an arbitrary such parameter, so the
  statements capture exactly the algebraic structure of the code.
* numpy arrays of shape (n, 2) are modelled as functions from the body index
  to a pair of rationals (together with the explicit count n), or as lists of
  pairs when the result of a function is an array.
* Vectorized numpy expressions (broadcasting, matrix products, reductions)
  are rendered by their defining pointwise formulas and finite sums.
-/

namespace NBody

/-- A 2-D vector with rational coordinates, modelling one row of a numpy
(n, 2) float array. -/
abbrev Vec2 := ℚ × ℚ

/-- Dot product of 2-D vectors; models numpy v.dot(w) for length-2 vectors. -/
def dot (a b : Vec2) : ℚ := a.1 * b.1 + a.2 * b.2

/-- Elementwise division of a 2-D vector by a scalar, modelling numpy
vector / scalar. -/
def vdiv (v : Vec2) (c : ℚ) : Vec2 := (v.1 / c, v.2 / c)

/-- The Python float modulo operation a % b (for the moduli used by the
source, which are positive): a % b = a - b * floor (a / b). -/
def pymod (a b : ℚ) : ℚ := a - b * ⌊a / b⌋

/-! ## Direct sum force model, src/direct_sum.py -/

/-- Body of the inner loop of acceleration (src/direct_sum.py lines 28-32):
for a fixed row index m1, fold over m2 the update
result[m1] -= masses[m2] * dist * dist.dot(dist) ** -1.5
where dist = current_pos[m1] - current_pos[m2] and the self term m1 == m2 is
skipped by the explicit index test.  The scalar map t ↦ t ** -1.5 is the
abstract parameter pw. -/
def dsInner (pw : ℚ → ℚ) (ms : ℕ → ℚ) (ps : ℕ → Vec2) (m1 : ℕ)
    (acc : Vec2) (m2 : ℕ) : Vec2 :=
  if m1 ≠ m2 then
    acc - pw (dot (ps m1 - ps m2) (ps m1 - ps m2)) • ms m2 • (ps m1 - ps m2)
  else acc

/-- Row m1 of the direct sum result: the inner loop of
acceleration (src/direct_sum.py lines 29-32) starting from the zero row. -/
def dsRow (pw : ℚ → ℚ) (ms : ℕ → ℚ) (ps : ℕ → Vec2) (n m1 : ℕ) : Vec2 :=
  (List.range n).foldl (dsInner pw ms ps m1) 0

/-- The function acceleration of src/direct_sum.py (lines 16-34): a list of
n rows, row m1 produced by the double loop over m2. -/
def acceleration (pw : ℚ → ℚ) (ms : ℕ → ℚ) (ps : ℕ → Vec2) (n : ℕ) :
    List Vec2 :=
  (List.range n).map (dsRow pw ms ps n)

/-- Entry (i, j) of the masked inverse-cube factor matrix of
acceleration_vec (src/direct_sum.py lines 60-61):
factor = dx ** 2 + dy ** 2 with dx[i, j] = x_j - x_i, then
np.float_power(factor, -1.5, where=factor != 0, out=factor), which applies
pw where the entry is nonzero and keeps the original (zero) entry
otherwise. -/
def factorEntry (pw : ℚ → ℚ) (ps : ℕ → Vec2) (i j : ℕ) : ℚ :=
  let f := ((ps j).1 - (ps i).1) ^ 2 + ((ps j).2 - (ps i).2) ^ 2
  if f ≠ 0 then pw f else f

/-- The function acceleration_vec of src/direct_sum.py (lines 37-68).  The
matrix products (dx * factor) @ masses and (dy * factor) @ masses are
rendered by their defining sums: row i of the result is
(Σ_j dx[i, j] * factor[i, j] * masses[j], Σ_j dy[i, j] * factor[i, j] * masses[j]). -/
def acceleration_vec (pw : ℚ → ℚ) (ms : ℕ → ℚ) (ps : ℕ → Vec2) (n : ℕ) :
    List Vec2 :=
  (List.range n).map fun i =>
    (∑ j in Finset.range n, ((ps j).1 - (ps i).1) * factorEntry pw ps i j * ms j,
     ∑ j in Finset.range n, ((ps j).2 - (ps i).2) * factorEntry pw ps i j * ms j)

/-! ### Fold-to-sum lemmas for the direct sum loops -/

lemma dsInner_eq (pw : ℚ → ℚ) (ms : ℕ → ℚ) (ps : ℕ → Vec2) (m1 : ℕ)
    (acc : Vec2) (m2 : ℕ) :
    dsInner pw ms ps m1 acc m2 =
      acc - (if m1 ≠ m2 then
        pw (dot (ps m1 - ps m2) (ps m1 - ps m2)) • ms m2 • (ps m1 - ps m2)
        else 0) := by
  by_cases h : m1 ≠ m2 <;> simp [dsInner, h]

lemma foldl_sub_eq (g : ℕ → Vec2) (l : List ℕ) (a : Vec2) :
    l.foldl (fun acc j => acc - g j) a = a - (l.map g).sum := by
  induction l generalizing a with
  | nil => simp
  | cons x xs ih => simp [ih, sub_sub]

lemma sum_map_range {M : Type} [AddCommMonoid M] (f : ℕ → M) (n : ℕ) :
    ((List.range n).map f).sum = ∑ j in Finset.range n, f j := by
  induction n with
  | zero => simp
  | succ k ih => simp [List.range_succ, Finset.sum_range_succ, ih]

/-- The direct sum row equals the claimed pairwise sum over all other
indices. -/
lemma dsRow_eq_sum (pw : ℚ → ℚ) (ms : ℕ → ℚ) (ps : ℕ → Vec2) (n m1 : ℕ) :
    dsRow pw ms ps n m1 =
      ∑ j in (Finset.range n).erase m1,
        pw (dot (ps j - ps m1) (ps j - ps m1)) • ms j • (ps j - ps m1) := by
  have hfold : dsRow pw ms ps n m1 =
      (0 : Vec2) - ((List.range n).map (fun m2 =>
        if m1 ≠ m2 then
          pw (dot (ps m1 - ps m2) (ps m1 - ps m2)) • ms m2 • (ps m1 - ps m2)
        else 0)).sum := by
    rw [dsRow]
    rw [show (dsInner pw ms ps m1) = (fun acc j => acc -
        (if m1 ≠ j then
          pw (dot (ps m1 - ps j) (ps m1 - ps j)) • ms j • (ps m1 - ps j)
          else 0)) from funext fun acc => funext fun j => dsInner_eq pw ms ps m1 acc j]
    exact foldl_sub_eq _ _ _
  have hsym : ∀ j : ℕ, dot (ps m1 - ps j) (ps m1 - ps j)
      = dot (ps j - ps m1) (ps j - ps m1) := by
    intro j
    simp only [dot, Prod.fst_sub, Prod.snd_sub]
    ring
  have hterm : ∀ j : ℕ, m1 ≠ j →
      -(pw (dot (ps m1 - ps j) (ps m1 - ps j)) • ms j • (ps m1 - ps j))
        = pw (dot (ps j - ps m1) (ps j - ps m1)) • ms j • (ps j - ps m1) := by
    intro j _
    rw [hsym j, ← smul_neg, ← smul_neg, neg_sub]
  have h0 : (if m1 ≠ m1 then
      pw (dot (ps m1 - ps m1) (ps m1 - ps m1)) • ms m1 • (ps m1 - ps m1)
      else (0 : Vec2)) = 0 := by simp
  rw [hfold, sum_map_range, zero_sub, ← Finset.sum_erase (Finset.range n) h0,
    ← Finset.sum_neg_distrib]
  exact Finset.sum_congr rfl fun j hj => by
    rw [if_pos (Ne.symm (Finset.ne_of_mem_erase hj))]
    exact hterm j (Ne.symm (Finset.ne_of_mem_erase hj))

lemma getD_map_range {f : ℕ → Vec2} {n i : ℕ} (h : i < n) :
    ((List.range n).map f).getD i 0 = f i := by
  simp [List.getD_eq_getElem?_getD, List.getElem?_range h]

lemma sumsq_ne_zero {a b : ℚ} (h : ¬(a = 0 ∧ b = 0)) : a ^ 2 + b ^ 2 ≠ 0 := by
  intro hab
  have ha : a = 0 := by nlinarith [sq_nonneg a, sq_nonneg b]
  have hb : b = 0 := by nlinarith [sq_nonneg a, sq_nonneg b]
  exact h ⟨ha, hb⟩

/-- C5: for every n and pairwise-distinct positions, row i of the loop-based
direct sum acceleration (src/direct_sum.py lines 16-34) is the sum, over all
indices j different from i, of the term mass j times (pos j - pos i) scaled
by the inverse-cube factor pw applied to the squared distance; and for n = 1
the result is the single zero row, the self term being excluded by the
explicit index test of the inner loop. -/
theorem C5_direct_sum_rows (pw : ℚ → ℚ) (ms : ℕ → ℚ) (ps : ℕ → Vec2) (n : ℕ)
    (hdist : ∀ i < n, ∀ j < n, i ≠ j → ps i ≠ ps j) :
    (∀ i < n, (acceleration pw ms ps n).getD i 0 =
      ∑ j in (Finset.range n).erase i,
        pw (dot (ps j - ps i) (ps j - ps i)) • ms j • (ps j - ps i))
    ∧ acceleration pw ms ps 1 = [0] := by
  refine ⟨fun i hi => ?_, ?_⟩
  · rw [acceleration, getD_map_range hi, dsRow_eq_sum]
  · have h0 : dsRow pw ms ps 1 0 = 0 := by
      rw [dsRow_eq_sum]
      simp
    simp [acceleration, List.range_succ, h0]

/-- Witness for C5 at the concrete input pw = id, unit masses, two bodies at
(0, 0) and (1, 0): row 0 evaluates to (1, 0). -/
theorem C5_witness :
    (acceleration id (fun _ => 1) (fun i => ((i : ℚ), 0)) 2).getD 0 0 = (1, 0) := by
  have h := (C5_direct_sum_rows id (fun _ => 1) (fun i => ((i : ℚ), 0)) 2
    (by decide)).1 0 (by decide)
  rw [h, show ((Finset.range 2).erase 0) = {1} from by decide, Finset.sum_singleton]
  refine Prod.ext ?_ ?_ <;>
    norm_num [dot, Prod.smul_fst, Prod.smul_snd, Prod.fst_sub, Prod.snd_sub, smul_eq_mul]

/-- C6: on every input with pairwise-distinct positions, the loop-based
direct sum implementation and the vectorized pairwise-matrix implementation
of src/direct_sum.py return the same acceleration array, the vectorized
version masking the zero self-distance before applying the inverse-cube
factor pw. -/
theorem C6_vec_refines_loop (pw : ℚ → ℚ) (ms : ℕ → ℚ) (ps : ℕ → Vec2) (n : ℕ)
    (hdist : ∀ i < n, ∀ j < n, i ≠ j → ps i ≠ ps j) :
    acceleration pw ms ps n = acceleration_vec pw ms ps n := by
  rw [acceleration, acceleration_vec]
  refine List.map_congr_left fun i hi => ?_
  have hin : i < n := List.mem_range.mp hi
  rw [dsRow_eq_sum]
  have hdiag1 : ((ps i).1 - (ps i).1) * factorEntry pw ps i i * ms i = 0 := by
    ring_nf
  have hdiag2 : ((ps i).2 - (ps i).2) * factorEntry pw ps i i * ms i = 0 := by
    ring_nf
  have e1 : ∑ j in Finset.range n, ((ps j).1 - (ps i).1) * factorEntry pw ps i j * ms j
      = ∑ j in (Finset.range n).erase i,
          ((ps j).1 - (ps i).1) * factorEntry pw ps i j * ms j :=
    (Finset.sum_erase (Finset.range n) hdiag1).symm
  have e2 : ∑ j in Finset.range n, ((ps j).2 - (ps i).2) * factorEntry pw ps i j * ms j
      = ∑ j in (Finset.range n).erase i,
          ((ps j).2 - (ps i).2) * factorEntry pw ps i j * ms j :=
    (Finset.sum_erase (Finset.range n) hdiag2).symm
  have hterm : ∀ j ∈ (Finset.range n).erase i,
      pw (dot (ps j - ps i) (ps j - ps i)) • ms j • (ps j - ps i)
        = (((ps j).1 - (ps i).1) * factorEntry pw ps i j * ms j,
           ((ps j).2 - (ps i).2) * factorEntry pw ps i j * ms j) := by
    intro j hj
    have hjn : j < n := Finset.mem_range.mp (Finset.mem_of_mem_erase hj)
    have hji : j ≠ i := Finset.ne_of_mem_erase hj
    have hne : ps j ≠ ps i := hdist j hjn i hin hji
    have hf : ((ps j).1 - (ps i).1) ^ 2 + ((ps j).2 - (ps i).2) ^ 2 ≠ 0 := by
      apply sumsq_ne_zero
      rintro ⟨h1, h2⟩
      exact hne (Prod.ext (by linarith) (by linarith))
    have hfac : factorEntry pw ps i j
        = pw (((ps j).1 - (ps i).1) ^ 2 + ((ps j).2 - (ps i).2) ^ 2) := by
      rw [factorEntry, if_pos hf]
    have hdot : dot (ps j - ps i) (ps j - ps i)
        = ((ps j).1 - (ps i).1) ^ 2 + ((ps j).2 - (ps i).2) ^ 2 := by
      simp only [dot, Prod.fst_sub, Prod.snd_sub]
      ring
    refine Prod.ext ?_ ?_
    · simp only [Prod.smul_fst, Prod.fst_sub, smul_eq_mul, hfac, hdot]
      ring
    · simp only [Prod.smul_snd, Prod.snd_sub, smul_eq_mul, hfac, hdot]
      ring
  rw [e1, e2, Finset.sum_congr rfl hterm]
  exact Prod.ext (by rw [Prod.fst_sum]) (by rw [Prod.snd_sum])

/-- Witness for C6 at the concrete input pw = id, unit masses, two bodies at
(0, 0) and (1, 0). -/
theorem C6_witness :
    acceleration id (fun _ => 1) (fun i => ((i : ℚ), 0)) 2
      = acceleration_vec id (fun _ => 1) (fun i => ((i : ℚ), 0)) 2 :=
  C6_vec_refines_loop id (fun _ => 1) (fun i => ((i : ℚ), 0)) 2 (by decide)

/-- C10: under exact arithmetic, the mass-weighted sum of the rows of the
loop-based direct sum acceleration vanishes (conservation of total momentum,
by antisymmetry of the pairwise terms). -/
theorem C10_momentum_conservation (pw : ℚ → ℚ) (ms : ℕ → ℚ) (ps : ℕ → Vec2)
    (n : ℕ) (hn : 1 ≤ n) (hm : ∀ i < n, 0 < ms i)
    (hdist : ∀ i < n, ∀ j < n, i ≠ j → ps i ≠ ps j) :
    ∑ i in Finset.range n, ms i • (acceleration pw ms ps n).getD i 0 = 0 := by
  have hrow : ∀ i ∈ Finset.range n, ms i • (acceleration pw ms ps n).getD i 0
      = ∑ j in Finset.range n,
          ms i • pw (dot (ps j - ps i) (ps j - ps i)) • ms j • (ps j - ps i) := by
    intro i hi
    have hin : i < n := Finset.mem_range.mp hi
    rw [acceleration, getD_map_range hin, dsRow_eq_sum, Finset.smul_sum]
    refine Finset.sum_erase (Finset.range n) ?_
    simp
  rw [Finset.sum_congr rfl hrow]
  have hanti : ∀ i j : ℕ,
      ms j • pw (dot (ps i - ps j) (ps i - ps j)) • ms i • (ps i - ps j)
        = -(ms i • pw (dot (ps j - ps i) (ps j - ps i)) • ms j • (ps j - ps i)) := by
    intro i j
    have hsym : dot (ps i - ps j) (ps i - ps j) = dot (ps j - ps i) (ps j - ps i) := by
      simp only [dot, Prod.fst_sub, Prod.snd_sub]
      ring
    simp only [hsym, smul_smul]
    rw [show ms j * (pw (dot (ps j - ps i) (ps j - ps i)) * ms i)
        = ms i * (pw (dot (ps j - ps i) (ps j - ps i)) * ms j) by ring]
    rw [← smul_neg, neg_sub]
  have key : (∑ i in Finset.range n, ∑ j in Finset.range n,
        ms i • pw (dot (ps j - ps i) (ps j - ps i)) • ms j • (ps j - ps i))
      = -(∑ i in Finset.range n, ∑ j in Finset.range n,
        ms i • pw (dot (ps j - ps i) (ps j - ps i)) • ms j • (ps j - ps i)) := by
    conv_lhs => rw [Finset.sum_comm]
    simp only [← Finset.sum_neg_distrib]
    exact Finset.sum_congr rfl fun x _ => Finset.sum_congr rfl fun y _ => hanti x y
  have h1 : (∑ i in Finset.range n, ∑ j in Finset.range n,
      ms i • pw (dot (ps j - ps i) (ps j - ps i)) • ms j • (ps j - ps i)).1 = 0 := by
    have := congrArg Prod.fst key
    simp only [Prod.fst_neg] at this
    linarith
  have h2 : (∑ i in Finset.range n, ∑ j in Finset.range n,
      ms i • pw (dot (ps j - ps i) (ps j - ps i)) • ms j • (ps j - ps i)).2 = 0 := by
    have := congrArg Prod.snd key
    simp only [Prod.snd_neg] at this
    linarith
  exact Prod.ext h1 h2

/-- Witness for C10 at pw = id, unit masses, two bodies at (0, 0) and
(1, 0). -/
theorem C10_witness :
    ∑ i in Finset.range 2,
      (fun _ => (1 : ℚ)) i • (acceleration id (fun _ => 1) (fun i => ((i : ℚ), 0)) 2).getD i 0 = 0 :=
  C10_momentum_conservation id (fun _ => 1) (fun i => ((i : ℚ), 0)) 2
    (by decide) (by decide) (by decide)

/-! ## Barnes-Hut quadtree, src/barnes_hut.py

The Python class Quad holds the body data indirectly: the module-level
variables positions and masses are arrays indexed by body index.  The
embedding passes those arrays explicitly as functions ps and ms.  A child
slot holding the Python value None is modelled by the constructor
Quad.empty; a real quadrant is a Quad.node. -/

/-- A quadtree node.  Fields follow Quad.__init__ (src/barnes_hut.py lines
34-52): lower-left corner (x, y), radius = size / 2 (half the side length),
the optional occupant body index, the four child slots (index 0 lower left,
1 lower right, 2 upper left, 3 upper right), the running center of mass and
the total mass. -/
inductive Quad : Type where
  | empty : Quad
  | node (x y radius : ℚ) (body : Option ℕ) (c0 c1 c2 c3 : Quad)
      (com : Vec2) (tm : ℚ) : Quad
deriving DecidableEq

namespace Quad

/-- Quad.__init__ (lines 34-52) for a given corner and side length:
radius = size / 2, no body, no children, center of mass (0, 0),
total mass 0. -/
def init (x y size : ℚ) : Quad :=
  .node x y (size / 2) none .empty .empty .empty .empty (0, 0) 0

/-- Whether a child slot holds the Python value None. -/
def isEmptySlot : Quad → Bool
  | .empty => true
  | .node _ _ _ _ _ _ _ _ _ _ => false

/-- The property is_internal (lines 54-57): Python any(self.children) is
true iff some child slot holds a real node. -/
def isInternal : Quad → Bool
  | .empty => false
  | .node _ _ _ _ c0 c1 c2 c3 _ _ =>
      !c0.isEmptySlot || !c1.isEmptySlot || !c2.isEmptySlot || !c3.isEmptySlot

/-- The property size (lines 59-62): side length, radius * 2. -/
def size : Quad → ℚ
  | .empty => 0
  | .node _ _ r _ _ _ _ _ _ _ => r * 2

/-- The x coordinate of the lower left corner. -/
def x : Quad → ℚ
  | .empty => 0
  | .node a _ _ _ _ _ _ _ _ _ => a

/-- The y coordinate of the lower left corner. -/
def y : Quad → ℚ
  | .empty => 0
  | .node _ a _ _ _ _ _ _ _ _ => a

/-- Half the side length. -/
def radius : Quad → ℚ
  | .empty => 0
  | .node _ _ r _ _ _ _ _ _ _ => r

/-- The occupant body index. -/
def bodySlot : Quad → Option ℕ
  | .empty => none
  | .node _ _ _ bd _ _ _ _ _ _ => bd

/-- The running center of mass. -/
def centerOfMass : Quad → Vec2
  | .empty => (0, 0)
  | .node _ _ _ _ _ _ _ _ com _ => com

/-- The running total mass. -/
def totalMass : Quad → ℚ
  | .empty => 0
  | .node _ _ _ _ _ _ _ _ _ tm => tm

end Quad

/-- Child slot lookup by quadrant index, modelling self.children[i]. -/
def getC : ℕ → Quad → Quad → Quad → Quad → Quad
  | 0, a, _, _, _ => a
  | 1, _, b, _, _ => b
  | 2, _, _, c, _ => c
  | _, _, _, _, d => d

/-- Child slot update by quadrant index, modelling
self.children[i] = value. -/
def updC : ℕ → Quad → Quad → Quad → Quad → Quad → Quad × Quad × Quad × Quad
  | 0, v, _, b, c, d => (v, b, c, d)
  | 1, v, a, _, c, d => (a, v, c, d)
  | 2, v, a, b, _, d => (a, b, v, d)
  | _, v, a, b, c, _ => (a, b, c, v)

/-- Rebuild a node from a corner, body slot, a 4-tuple of children, center
of mass and total mass. -/
def withChildren (x y r : ℚ) (bd : Option ℕ) (cs : Quad × Quad × Quad × Quad)
    (com : Vec2) (tm : ℚ) : Quad :=
  Quad.node x y r bd cs.1 cs.2.1 cs.2.2.1 cs.2.2.2 com tm

/-- The core of Quad.get_sub_quad_index (src/barnes_hut.py lines 99-126)
on the corner data and a body position: right half when the x coordinate is
strictly greater than x + radius, upper half when the y coordinate is
strictly greater than y + radius. -/
def subQuadIndex (x y radius : ℚ) (pos : Vec2) : ℕ :=
  if x + radius < pos.1 then
    if y + radius < pos.2 then 3 else 1
  else
    if y + radius < pos.2 then 2 else 0

namespace Quad

/-- Quad.get_sub_quad_index (lines 99-126): looks up the body position in
the positions array and classifies it against the dividing lines of the
quad. -/
def get_sub_quad_index (ps : ℕ → Vec2) : Quad → ℕ → ℕ
  | .empty, _ => 0
  | .node x y r _ _ _ _ _ _ _, b => subQuadIndex x y r (ps b)

end Quad

/-- The corner and size of a lazily created sub-quadrant (src/barnes_hut.py
lines 139-144).  The Python source reads
new_x = self.x + self.radius * sub_quad_idx % 2, which by the precedence
rules of Python is self.x + ((self.radius * sub_quad_idx) % 2), a float
modulo; and new_y = self.y + self.radius * (1 if sub_quad_idx >= 2 else 0).
The child is Quad(new_x, new_y, self.radius). -/
def freshChild (x y radius : ℚ) (i : ℕ) : Quad :=
  Quad.init (x + pymod (radius * (i : ℚ)) 2)
    (y + radius * (if 2 ≤ i then 1 else 0)) radius

namespace Quad

/-- Quad.get_sub_quad (lines 128-146): returns the sub-quadrant for the
body (first component), lazily creating it, together with the parent after
the memoization of the created child (second component). -/
def get_sub_quad (ps : ℕ → Vec2) : Quad → ℕ → Quad × Quad
  | .empty, _ => (.empty, .empty)
  | .node x y r bd c0 c1 c2 c3 com tm, b =>
    let i := subQuadIndex x y r (ps b)
    if (getC i c0 c1 c2 c3).isEmptySlot then
      (freshChild x y r i,
        withChildren x y r bd (updC i (freshChild x y r i) c0 c1 c2 c3) com tm)
    else (getC i c0 c1 c2 c3, .node x y r bd c0 c1 c2 c3 com tm)

end Quad

/-- The effective child used by get_sub_quad for a given quadrant index:
the existing slot, or a lazily created fresh sub-quadrant when the slot is
None. -/
def effChild (x y r : ℚ) (i : ℕ) (c0 c1 c2 c3 : Quad) : Quad :=
  if (getC i c0 c1 c2 c3).isEmptySlot then freshChild x y r i
  else getC i c0 c1 c2 c3

/-- Quad.add_body (src/barnes_hut.py lines 64-97), with the in-place
mutation of the Python source rendered by returning the updated quad, and
an explicit fuel bound on the recursion depth (the Python source has no
depth bound and can recurse forever on coincident bodies; a run that needs
more depth than the fuel is modelled by the result none).
Branches, in source order:
* internal node (lines 71-78): place the body in the sub-quadrant given by
  get_sub_quad (lazily creating it), then merge the body into the running
  center of mass and add its mass;
* unfilled external node (lines 80-85): store the body, set the center of
  mass and total mass to its values;
* filled external node (lines 87-97): re-insert the current occupant into
  a sub-quadrant, clear the occupant, insert the new body into its
  sub-quadrant (using the children as updated by the first insertion), then
  merge the new body into the running center of mass and add its mass. -/
def addBody (ms : ℕ → ℚ) (ps : ℕ → Vec2) : ℕ → Quad → ℕ → Option Quad
  | 0, _, _ => none
  | _ + 1, .empty, _ => none
  | fuel + 1, .node x y r bd c0 c1 c2 c3 com tm, b =>
    if (Quad.node x y r bd c0 c1 c2 c3 com tm).isInternal then
      (addBody ms ps fuel (effChild x y r (subQuadIndex x y r (ps b)) c0 c1 c2 c3) b).map
        fun ch => withChildren x y r bd (updC (subQuadIndex x y r (ps b)) ch c0 c1 c2 c3)
          (vdiv (tm • com + ms b • ps b) (tm + ms b)) (tm + ms b)
    else
      match bd with
      | none => some (.node x y r (some b) c0 c1 c2 c3 (ps b) (ms b))
      | some c =>
        (addBody ms ps fuel (effChild x y r (subQuadIndex x y r (ps c)) c0 c1 c2 c3) c).bind
          fun ch1 =>
            match updC (subQuadIndex x y r (ps c)) ch1 c0 c1 c2 c3 with
            | (d0, d1, d2, d3) =>
              (addBody ms ps fuel (effChild x y r (subQuadIndex x y r (ps b)) d0 d1 d2 d3) b).map
                fun ch2 => withChildren x y r none (updC (subQuadIndex x y r (ps b)) ch2 d0 d1 d2 d3)
                  (vdiv (tm • com + ms b • ps b) (tm + ms b)) (tm + ms b)

/-- The tree-filling loop of acceleration (src/barnes_hut.py lines
208-210): insert the bodies of the list one at a time. -/
def insertAll (ms : ℕ → ℚ) (ps : ℕ → Vec2) (fuel : ℕ) (q : Quad)
    (L : List ℕ) : Option Quad :=
  L.foldlM (fun acc b => addBody ms ps fuel acc b) q

/-- The function _calculate_acceleration (src/barnes_hut.py lines
149-174).  The inverse-cube scalar map t ↦ t ** -1.5 is the abstract
parameter pw.  In the external branch the Python source evaluates
masses[quad.body]; for a node whose body slot is None that expression
raises a TypeError (such nodes are never reached when traversing a tree
built by add_body), and the embedding returns the zero vector there. -/
def calcAcc (pw : ℚ → ℚ) (ms : ℕ → ℚ) (ps : ℕ → Vec2) (theta : ℚ) :
    Quad → ℕ → Vec2
  | .empty, _ => 0
  | .node x y r bd c0 c1 c2 c3 com tm, i =>
    if 4 * r ^ 2 < theta ^ 2 * dot (com - ps i) (com - ps i) then
      pw (dot (com - ps i) (com - ps i)) • tm • (com - ps i)
    else if (Quad.node x y r bd c0 c1 c2 c3 com tm).isInternal then
      (if c0.isEmptySlot then 0 else calcAcc pw ms ps theta c0 i)
        + (if c1.isEmptySlot then 0 else calcAcc pw ms ps theta c1 i)
        + (if c2.isEmptySlot then 0 else calcAcc pw ms ps theta c2 i)
        + (if c3.isEmptySlot then 0 else calcAcc pw ms ps theta c3 i)
    else
      match bd with
      | some b =>
          if b ≠ i then pw (dot (com - ps i) (com - ps i)) • ms b • (com - ps i)
          else 0
      | none => 0

lemma calcAcc_node (pw : ℚ → ℚ) (ms : ℕ → ℚ) (ps : ℕ → Vec2)
    (theta x y r : ℚ) (bd : Option ℕ) (c0 c1 c2 c3 : Quad) (com : Vec2)
    (tm : ℚ) (i : ℕ) :
    calcAcc pw ms ps theta (Quad.node x y r bd c0 c1 c2 c3 com tm) i =
      if 4 * r ^ 2 < theta ^ 2 * dot (com - ps i) (com - ps i) then
        pw (dot (com - ps i) (com - ps i)) • tm • (com - ps i)
      else if (Quad.node x y r bd c0 c1 c2 c3 com tm).isInternal then
        (if c0.isEmptySlot then 0 else calcAcc pw ms ps theta c0 i)
          + (if c1.isEmptySlot then 0 else calcAcc pw ms ps theta c1 i)
          + (if c2.isEmptySlot then 0 else calcAcc pw ms ps theta c2 i)
          + (if c3.isEmptySlot then 0 else calcAcc pw ms ps theta c3 i)
      else
        match bd with
        | some b =>
            if b ≠ i then pw (dot (com - ps i) (com - ps i)) • ms b • (com - ps i)
            else 0
        | none => 0 := rfl

/-- C1: evaluation of the sub-quadrant creation at a failing input.  For
the quad with lower-left corner (0, 0) and side 10 (half-size 5) and a body
at (6, 1), get_sub_quad selects quadrant index 1 and creates the child; the
claim requires the child corner (0 + 5, 0) = (5, 0), but the code computes
new_x = x + ((radius * 1) mod 2) = 1 because the Python expression
x + radius * idx % 2 groups as x + ((radius * idx) % 2).  The side length
of the child is 5, as claimed. -/
theorem C1_child_corner_bug :
    ((Quad.get_sub_quad (fun _ => (6, 1)) (Quad.init 0 0 10) 1).1.x = 1)
    ∧ ((Quad.get_sub_quad (fun _ => (6, 1)) (Quad.init 0 0 10) 1).1.size = 5)
    ∧ ((Quad.init 0 0 10).x + (Quad.init 0 0 10).radius = 5)
    ∧ ((1 : ℚ) ≠ 5) := by
  have hidx : subQuadIndex 0 0 (10 / 2) ((6 : ℚ), (1 : ℚ)) = 1 := by
    rw [subQuadIndex]
    norm_num
  have hfloor : ⌊(10 / 2 * ((1 : ℕ) : ℚ)) / 2⌋ = 2 := by
    rw [Int.floor_eq_iff]
    norm_num
  have hmod : pymod (10 / 2 * ((1 : ℕ) : ℚ)) 2 = 1 := by
    rw [pymod, hfloor]
    norm_num
  refine ⟨?_, ?_, by norm_num [Quad.init, Quad.x, Quad.radius], by norm_num⟩
  · simp only [Quad.init, Quad.get_sub_quad, hidx, getC, Quad.isEmptySlot,
      if_true, freshChild, Quad.x, hmod]
    norm_num
  · simp only [Quad.init, Quad.get_sub_quad, hidx, getC, Quad.isEmptySlot,
      if_true, freshChild, Quad.size]
    norm_num

/-- C2 counterexample: a body exactly on both dividing lines of the quad
with corner (0, 0) and side 2 (so the lines are at coordinate 1) is
assigned quadrant index 0, the lower-left quadrant, not the upper/right
ones demanded by the claim. -/
theorem C2_tie_counterexample :
    Quad.get_sub_quad_index (fun _ => ((1 : ℚ), (1 : ℚ))) (Quad.init 0 0 2) 0 = 0
    ∧ ((0 : ℚ) + (Quad.init 0 0 2).radius = 1)
    ∧ (0 : ℕ) ≠ 1 ∧ (0 : ℕ) ≠ 3 := by
  refine ⟨?_, by norm_num [Quad.init, Quad.radius], by decide, by decide⟩
  simp only [Quad.init, Quad.get_sub_quad_index, subQuadIndex]
  norm_num

/-- C2 (amended): the quadrant selected for a body relative to a quad with
lower-left corner (x, y) and half-size r is in the right half (index 1 or
3) iff the x coordinate is strictly greater than x + r, and in the upper
half (index 2 or 3) iff the y coordinate is strictly greater than y + r; a
coordinate exactly on a dividing line is assigned to the left (resp. lower)
half, not to the right (resp. upper) half as the original claim states. -/
theorem C2_quadrant_selection (ps : ℕ → Vec2) (x y r : ℚ) (bd : Option ℕ)
    (c0 c1 c2 c3 : Quad) (com : Vec2) (tm : ℚ) (b : ℕ) :
    ((Quad.get_sub_quad_index ps (Quad.node x y r bd c0 c1 c2 c3 com tm) b = 1
        ∨ Quad.get_sub_quad_index ps (Quad.node x y r bd c0 c1 c2 c3 com tm) b = 3)
      ↔ x + r < (ps b).1)
    ∧ ((Quad.get_sub_quad_index ps (Quad.node x y r bd c0 c1 c2 c3 com tm) b = 2
        ∨ Quad.get_sub_quad_index ps (Quad.node x y r bd c0 c1 c2 c3 com tm) b = 3)
      ↔ y + r < (ps b).2)
    ∧ ((ps b).1 = x + r →
        (Quad.get_sub_quad_index ps (Quad.node x y r bd c0 c1 c2 c3 com tm) b = 0
          ∨ Quad.get_sub_quad_index ps (Quad.node x y r bd c0 c1 c2 c3 com tm) b = 2))
    ∧ ((ps b).2 = y + r →
        (Quad.get_sub_quad_index ps (Quad.node x y r bd c0 c1 c2 c3 com tm) b = 0
          ∨ Quad.get_sub_quad_index ps (Quad.node x y r bd c0 c1 c2 c3 com tm) b = 1)) := by
  simp only [Quad.get_sub_quad_index, subQuadIndex]
  by_cases hx : x + r < (ps b).1 <;> by_cases hy : y + r < (ps b).2
  · rw [if_pos hx, if_pos hy]
    refine ⟨by simp [hx], by simp [hy], ?_, ?_⟩
    · intro h
      rw [h] at hx
      exact absurd hx (lt_irrefl _)
    · intro h
      rw [h] at hy
      exact absurd hy (lt_irrefl _)
  · rw [if_pos hx, if_neg hy]
    refine ⟨by simp [hx], by simp [hy], ?_, fun _ => Or.inr rfl⟩
    intro h
    rw [h] at hx
    exact absurd hx (lt_irrefl _)
  · rw [if_neg hx, if_pos hy]
    refine ⟨by simp [hx], by simp [hy], fun _ => Or.inr rfl, ?_⟩
    intro h
    rw [h] at hy
    exact absurd hy (lt_irrefl _)
  · rw [if_neg hx, if_neg hy]
    exact ⟨by simp [hx], by simp [hy], fun _ => Or.inl rfl, fun _ => Or.inl rfl⟩

/-- Witness for the amended C2 at a concrete input: a body at (2, 0)
relative to the quad with corner (0, 0) and half-size 1 is assigned the
lower-right quadrant, index 1. -/
theorem C2_witness :
    Quad.get_sub_quad_index (fun _ => ((2 : ℚ), 0))
      (Quad.node 0 0 1 none .empty .empty .empty .empty (0, 0) 0) 0 = 1 := by
  have h1 := (C2_quadrant_selection (fun _ => ((2 : ℚ), 0)) 0 0 1 none
    .empty .empty .empty .empty (0, 0) 0 0).1
  have h2 := (C2_quadrant_selection (fun _ => ((2 : ℚ), 0)) 0 0 1 none
    .empty .empty .empty .empty (0, 0) 0 0).2.1
  rcases h1.mpr (by norm_num) with h | h
  · exact h
  · exact absurd (h2.mp (Or.inr h)) (by norm_num)

/-- C3: the recursive Barnes-Hut evaluation on a node (src/barnes_hut.py
lines 149-174) satisfies the claimed case analysis, with d the vector from
the body position to the center of mass of the quad, s = 2 radius the full
side length (so the far-field test s ^ 2 < theta ^ 2 * |d| ^ 2 is
4 * radius ^ 2 < theta ^ 2 * dot d d), and pw the abstract inverse-cube
scalar: far quads contribute the aggregate term, near internal quads the
sum over the non-null children, near external quads holding a different
body the exact pairwise term, and a quad holding the body itself zero. -/
theorem C3_barnes_hut_cases (pw : ℚ → ℚ) (ms : ℕ → ℚ) (ps : ℕ → Vec2)
    (theta x y r : ℚ) (bd : Option ℕ) (c0 c1 c2 c3 : Quad) (com : Vec2)
    (tm : ℚ) (i : ℕ) :
    (4 * r ^ 2 < theta ^ 2 * dot (com - ps i) (com - ps i) →
      calcAcc pw ms ps theta (Quad.node x y r bd c0 c1 c2 c3 com tm) i
        = pw (dot (com - ps i) (com - ps i)) • tm • (com - ps i))
    ∧ (¬(4 * r ^ 2 < theta ^ 2 * dot (com - ps i) (com - ps i)) →
        (Quad.node x y r bd c0 c1 c2 c3 com tm).isInternal = true →
        calcAcc pw ms ps theta (Quad.node x y r bd c0 c1 c2 c3 com tm) i
          = (([c0, c1, c2, c3].filter fun c => !c.isEmptySlot).map
              fun c => calcAcc pw ms ps theta c i).sum)
    ∧ (∀ b2, ¬(4 * r ^ 2 < theta ^ 2 * dot (com - ps i) (com - ps i)) →
        (Quad.node x y r bd c0 c1 c2 c3 com tm).isInternal = false →
        bd = some b2 → b2 ≠ i →
        calcAcc pw ms ps theta (Quad.node x y r bd c0 c1 c2 c3 com tm) i
          = pw (dot (com - ps i) (com - ps i)) • ms b2 • (com - ps i))
    ∧ (¬(4 * r ^ 2 < theta ^ 2 * dot (com - ps i) (com - ps i)) →
        (Quad.node x y r bd c0 c1 c2 c3 com tm).isInternal = false →
        bd = some i →
        calcAcc pw ms ps theta (Quad.node x y r bd c0 c1 c2 c3 com tm) i = 0) := by
  refine ⟨fun hfar => ?_, fun hfar hint => ?_, fun b2 hfar hint hbd hbi => ?_,
    fun hfar hint hbd => ?_⟩
  · rw [calcAcc_node, if_pos hfar]
  · rw [calcAcc_node, if_neg hfar, if_pos hint]
    cases h0 : c0.isEmptySlot <;> cases h1 : c1.isEmptySlot <;>
      cases h2 : c2.isEmptySlot <;> cases h3 : c3.isEmptySlot <;>
      simp [h0, h1, h2, h3, List.filter, add_assoc]
  · subst hbd
    rw [calcAcc_node, if_neg hfar, if_neg (by simp [hint])]
    simp [hbi]
  · subst hbd
    rw [calcAcc_node, if_neg hfar, if_neg (by simp [hint])]
    simp

/-- Witness for C3 at a concrete far-field input: a point-mass quad of
radius 0, total mass 2 and center of mass (1, 0) acting on a body at the
origin with theta = 1 and pw = id contributes (2, 0). -/
theorem C3_witness :
    calcAcc id (fun _ => 1) (fun _ => ((0 : ℚ), 0)) 1
      (Quad.node 0 0 0 none .empty .empty .empty .empty (1, 0) 2) 0 = (2, 0) := by
  have h := (C3_barnes_hut_cases id (fun _ => 1) (fun _ => ((0 : ℚ), 0)) 1
    0 0 0 none .empty .empty .empty .empty (1, 0) 2 0).1
    (by norm_num [dot])
  rw [h]
  refine Prod.ext ?_ ?_ <;>
    norm_num [dot, Prod.smul_fst, Prod.smul_snd, Prod.fst_sub, Prod.snd_sub,
      smul_eq_mul]

/-! ## Solver wrapper, src/utils.py lines 26-65 -/

/-- A 2-D numpy array as the solver sees it: its shape and its entries. -/
structure NDArr2 where
  shape0 : ℕ
  shape1 : ℕ
  entry : ℕ → ℕ → ℚ

/-- The two ValueError cases raised by the solver decorator: body-count
mismatch between the initial-condition arrays and the mass array, and a
second dimension other than 2. -/
inductive SolverErr where
  | countMismatch : SolverErr
  | dimMismatch : SolverErr
deriving DecidableEq

/-- The decorator solver of src/utils.py (lines 26-65): validate shapes,
allocate zero trajectory buffers of shape (n, 2, T) indexed (body, coord,
time), copy the initial conditions into time index 0, and call the wrapped
integrator.  A raised ValueError is modelled by the error branch of
Except. -/
def solver {α β : Type}
    (func : List ℚ → (ℕ → ℕ → ℕ → ℚ) → (ℕ → ℕ → ℕ → ℚ) → ℚ → β → α)
    (masses : List ℚ) (init_pos init_vel : NDArr2)
    (time_steps : ℕ) (dt : ℚ) (acc_func : β) : Except SolverErr α :=
  if ¬(init_pos.shape0 = init_vel.shape0 ∧ init_vel.shape0 = masses.length) then
    .error .countMismatch
  else if ¬(init_pos.shape1 = 2 ∧ init_vel.shape1 = 2) then
    .error .dimMismatch
  else
    .ok (func masses
      (fun b c t => if t = 0 then init_pos.entry b c else 0)
      (fun b c t => if t = 0 then init_vel.entry b c else 0)
      dt acc_func)

/-- C8: the solver wrapper errors exactly when the body counts of the
initial position array, the initial velocity array and the mass array are
not all equal or a second dimension differs from 2; an error result does
not depend on the wrapped integrator (no integration work begins and no
buffer content is observable); and on valid input the wrapped integrator is
called on the freshly allocated buffers holding the initial conditions at
time index 0. -/
theorem C8_solver_validation {α β : Type}
    (func : List ℚ → (ℕ → ℕ → ℕ → ℚ) → (ℕ → ℕ → ℕ → ℚ) → ℚ → β → α)
    (masses : List ℚ) (ip iv : NDArr2) (T : ℕ) (dt : ℚ) (af : β) :
    ((∃ e, solver func masses ip iv T dt af = .error e) ↔
      (¬(ip.shape0 = iv.shape0 ∧ iv.shape0 = masses.length)
        ∨ ¬(ip.shape1 = 2 ∧ iv.shape1 = 2)))
    ∧ (∀ func2 : List ℚ → (ℕ → ℕ → ℕ → ℚ) → (ℕ → ℕ → ℕ → ℚ) → ℚ → β → α,
        (∃ e, solver func masses ip iv T dt af = .error e) →
        solver func masses ip iv T dt af = solver func2 masses ip iv T dt af)
    ∧ ((ip.shape0 = iv.shape0 ∧ iv.shape0 = masses.length) →
        (ip.shape1 = 2 ∧ iv.shape1 = 2) →
        solver func masses ip iv T dt af
          = .ok (func masses
              (fun b c t => if t = 0 then ip.entry b c else 0)
              (fun b c t => if t = 0 then iv.entry b c else 0) dt af)) := by
  by_cases h1 : ip.shape0 = iv.shape0 ∧ iv.shape0 = masses.length
  · by_cases h2 : ip.shape1 = 2 ∧ iv.shape1 = 2
    · refine ⟨?_, ?_, fun _ _ => by rw [solver, if_neg (by simpa using h1), if_neg (by simpa using h2)]⟩
      · rw [solver, if_neg (by simpa using h1), if_neg (by simpa using h2)]
        simp [h1, h2]
      · rw [solver, if_neg (by simpa using h1), if_neg (by simpa using h2)]
        rintro _ ⟨e, he⟩
        exact absurd he (by simp)
    · refine ⟨?_, ?_, fun _ hc => absurd hc h2⟩
      · rw [solver, if_neg (by simpa using h1), if_pos h2]
        simp [h2]
      · intro func2 _
        rw [solver, if_neg (by simpa using h1), if_pos h2,
          solver, if_neg (by simpa using h1), if_pos h2]
  · refine ⟨?_, ?_, fun hc => absurd hc h1⟩
    · rw [solver, if_pos h1]
      simp [h1]
    · intro func2 _
      rw [solver, if_pos h1, solver, if_pos h1]

/-- Witness for C8: with matching shapes (one body, two columns) the solver
calls the wrapped integrator, here a constant function returning 37. -/
theorem C8_witness :
    solver (fun _ _ _ _ _ => (37 : ℕ)) [1] ⟨1, 2, fun _ _ => 0⟩
      ⟨1, 2, fun _ _ => 0⟩ 5 1 () = .ok 37 := by
  have h := (C8_solver_validation (fun _ _ _ _ _ => (37 : ℕ)) [1]
    ⟨1, 2, fun _ _ => 0⟩ ⟨1, 2, fun _ _ => 0⟩ 5 1 ()).2.2
    ⟨rfl, rfl⟩ ⟨rfl, rfl⟩
  rw [h]

/-! ## Leapfrog integrator, src/integrators.py lines 41-68 -/

/-- One iteration of the leapfrog loop body (src/integrators.py lines
58-66): half-drift the position with the current velocity, full-kick the
velocity with the acceleration at the half-drifted position, half-drift
again with the updated velocity. -/
def leapfrogStep (acc : List ℚ → (ℕ → Vec2) → (ℕ → Vec2)) (masses : List ℚ)
    (dt : ℚ) (pv : (ℕ → Vec2) × (ℕ → Vec2)) : (ℕ → Vec2) × (ℕ → Vec2) :=
  let ph : ℕ → Vec2 := fun b => pv.1 b + (1 / 2 * dt) • pv.2 b
  let v2 : ℕ → Vec2 := fun b => pv.2 b + dt • acc masses ph b
  (fun b => ph b + (1 / 2 * dt) • v2 b, v2)

/-- The state at time index t produced by the leapfrog loop from the
initial conditions. -/
def leapfrogSeq (acc : List ℚ → (ℕ → Vec2) → (ℕ → Vec2)) (masses : List ℚ)
    (dt : ℚ) (p0 v0 : ℕ → Vec2) : ℕ → (ℕ → Vec2) × (ℕ → Vec2)
  | 0 => (p0, v0)
  | t + 1 => leapfrogStep acc masses dt (leapfrogSeq acc masses dt p0 v0 t)

/-- The function leapfrog of src/integrators.py (lines 41-68): the filled
trajectory buffers, rendered as the list of the T per-time-step (position,
velocity) snapshots, with the initial conditions at index 0.  The source
writes pos[:, :, t+1] twice per iteration; the net effect of one iteration
is leapfrogStep. -/
def leapfrog (acc : List ℚ → (ℕ → Vec2) → (ℕ → Vec2)) (masses : List ℚ)
    (dt : ℚ) (p0 v0 : ℕ → Vec2) (T : ℕ) : List ((ℕ → Vec2) × (ℕ → Vec2)) :=
  (List.range T).map (leapfrogSeq acc masses dt p0 v0)

lemma getD_map_range_gen {M : Type} {f : ℕ → M} {n i : ℕ} (d : M)
    (h : i < n) : ((List.range n).map f).getD i d = f i := by
  simp [List.getD_eq_getElem?_getD, List.getElem?_range h]

/-- C9: the leapfrog integrator leaves the initial conditions at index 0
unchanged and fills every later index by the drift-kick-drift scheme:
pos_half = pos t + (1/2) dt vel t, then vel (t+1) = vel t + dt acc masses
pos_half, then pos (t+1) = pos_half + (1/2) dt vel (t+1). -/
theorem C9_leapfrog_dkd (acc : List ℚ → (ℕ → Vec2) → (ℕ → Vec2))
    (masses : List ℚ) (dt : ℚ) (p0 v0 : ℕ → Vec2) (T : ℕ) (hT : 1 ≤ T) :
    ((leapfrog acc masses dt p0 v0 T).getD 0 (p0, v0) = (p0, v0))
    ∧ (∀ t, t + 1 < T → ∀ b,
        ((leapfrog acc masses dt p0 v0 T).getD (t + 1) (p0, v0)).2 b
          = ((leapfrog acc masses dt p0 v0 T).getD t (p0, v0)).2 b
            + dt • acc masses
                (fun b2 => ((leapfrog acc masses dt p0 v0 T).getD t (p0, v0)).1 b2
                  + (1 / 2 * dt) • ((leapfrog acc masses dt p0 v0 T).getD t (p0, v0)).2 b2) b
        ∧ ((leapfrog acc masses dt p0 v0 T).getD (t + 1) (p0, v0)).1 b
          = (((leapfrog acc masses dt p0 v0 T).getD t (p0, v0)).1 b
              + (1 / 2 * dt) • ((leapfrog acc masses dt p0 v0 T).getD t (p0, v0)).2 b)
            + (1 / 2 * dt) • ((leapfrog acc masses dt p0 v0 T).getD (t + 1) (p0, v0)).2 b) := by
  constructor
  · rw [leapfrog, getD_map_range_gen _ hT]
    rfl
  · intro t ht b
    have hlt : t < T := Nat.lt_of_succ_lt ht
    rw [leapfrog, getD_map_range_gen _ ht, getD_map_range_gen _ hlt]
    exact ⟨rfl, rfl⟩

/-- Witness for C9 at a concrete input: two time steps with a constant
acceleration function; index 0 of the result holds the initial
conditions. -/
theorem C9_witness :
    (leapfrog (fun _ _ _ => ((0 : ℚ), 0)) [1] 1 (fun _ => (0, 0))
      (fun _ => (1, 0)) 2).getD 0 (fun _ => (0, 0), fun _ => (1, 0))
      = (fun _ => (0, 0), fun _ => (1, 0)) :=
  (C9_leapfrog_dkd (fun _ _ _ => ((0 : ℚ), 0)) [1] 1 (fun _ => (0, 0))
    (fun _ => (1, 0)) 2 (by decide)).1

/-! ## Energy diagnostics, src/utils.py lines 175-241 -/

/-- Entry (a, b) of the masked inverse-distance matrix of
_get_energy_at_time (src/utils.py lines 198-206): norm[a, b] is the square
root (the abstract parameter sq) of dx[a, b] ^ 2 + dy[a, b] ^ 2 with
dx[a, b] = x_b - x_a, and np.divide(1, norm, where=norm != 0, out=inv)
writes 1 / norm where the norm is nonzero into a zero-initialized matrix. -/
def invEntry (sq : ℚ → ℚ) (p : ℕ → Vec2) (a b : ℕ) : ℚ :=
  if sq (((p b).1 - (p a).1) ^ 2 + ((p b).2 - (p a).2) ^ 2) ≠ 0 then
    1 / sq (((p b).1 - (p a).1) ^ 2 + ((p b).2 - (p a).2) ^ 2)
  else 0

/-- The kinetic energy of _get_energy_at_time (src/utils.py line 191):
0.5 * np.sum(masses * np.sum(vel ** 2, axis=1)). -/
def kinEnergyAt (masses : ℕ → ℚ) (vel : ℕ → Vec2) (n : ℕ) : ℚ :=
  1 / 2 * ∑ i in Finset.range n, masses i * ((vel i).1 ^ 2 + (vel i).2 ^ 2)

/-- The potential energy of _get_energy_at_time (src/utils.py lines
193-212): energy_per_body = np.transpose(inv * masses) * masses, whose
entry (i, j) is inv[j, i] * masses[i] * masses[j], summed over the whole
matrix and multiplied by -0.5. -/
def potEnergyAt (sq : ℚ → ℚ) (masses : ℕ → ℚ) (p : ℕ → Vec2) (n : ℕ) : ℚ :=
  -(1 / 2) * ∑ i in Finset.range n, ∑ j in Finset.range n,
    invEntry sq p j i * masses i * masses j

/-- _get_energy_at_time (src/utils.py lines 175-214): the pair of kinetic
and potential energy at one time index. -/
def getEnergyAt (sq : ℚ → ℚ) (masses : ℕ → ℚ) (pos vel : ℕ → ℕ → Vec2)
    (n t : ℕ) : ℚ × ℚ :=
  (kinEnergyAt masses (fun b => vel b t) n,
   potEnergyAt sq masses (fun b => pos b t) n)

/-- calculate_energy (src/utils.py lines 217-241): map _get_energy_at_time
over the T time indices (the multiprocessing pool is a deterministic map
gathered in index order), then unpack into the kinetic series, the
potential series and their pointwise sum. -/
def calculate_energy (sq : ℚ → ℚ) (masses : ℕ → ℚ) (pos vel : ℕ → ℕ → Vec2)
    (n T : ℕ) : List ℚ × List ℚ × List ℚ :=
  ((List.range T).map fun t => (getEnergyAt sq masses pos vel n t).1,
   (List.range T).map fun t => (getEnergyAt sq masses pos vel n t).2,
   (List.range T).map fun t =>
     (getEnergyAt sq masses pos vel n t).1 + (getEnergyAt sq masses pos vel n t).2)

lemma potEnergyAt_eq (sq : ℚ → ℚ) (masses : ℕ → ℚ) (p : ℕ → Vec2) (n : ℕ)
    (hsq : ∀ a : ℚ, sq a = 0 ↔ a = 0)
    (hd : ∀ i < n, ∀ j < n, i ≠ j → p i ≠ p j) :
    potEnergyAt sq masses p n
      = -(1 / 2) * ∑ i in Finset.range n, ∑ j in (Finset.range n).erase i,
          masses i * masses j * (1 / sq (dot (p i - p j) (p i - p j))) := by
  rw [potEnergyAt]
  congr 1
  refine Finset.sum_congr rfl fun i hi => ?_
  have hin : i < n := Finset.mem_range.mp hi
  have hdiag : invEntry sq p i i * masses i * masses i = 0 := by
    simp [invEntry, sub_self, (hsq 0).mpr rfl]
  rw [← Finset.sum_erase (Finset.range n) hdiag]
  refine Finset.sum_congr rfl fun j hj => ?_
  have hjn : j < n := Finset.mem_range.mp (Finset.mem_of_mem_erase hj)
  have hji : j ≠ i := Finset.ne_of_mem_erase hj
  have hne : p i ≠ p j := hd i hin j hjn (Ne.symm hji)
  have hf : ((p i).1 - (p j).1) ^ 2 + ((p i).2 - (p j).2) ^ 2 ≠ 0 := by
    apply sumsq_ne_zero
    rintro ⟨h1, h2⟩
    exact hne (Prod.ext (by linarith) (by linarith))
  have hsf : sq (((p i).1 - (p j).1) ^ 2 + ((p i).2 - (p j).2) ^ 2) ≠ 0 :=
    fun h => hf ((hsq _).mp h)
  have hdot : dot (p i - p j) (p i - p j)
      = ((p i).1 - (p j).1) ^ 2 + ((p i).2 - (p j).2) ^ 2 := by
    simp only [dot, Prod.fst_sub, Prod.snd_sub]
    ring
  rw [invEntry, if_pos hsf, hdot]
  ring

/-- C7: the energy diagnostics produce three series of length T; at each
step the kinetic series is (1/2) sum of mass times squared velocity norm,
the potential series is -(1/2) times the sum over ordered pairs of distinct
indices of the masses product over the distance (each unordered pair
counted once in each direction and the total halved), the third series is
the pointwise sum of the two; and an exactly-coincident pair contributes a
zero inverse-distance entry instead of a division by zero.  The square root
of the source is the abstract parameter sq, assumed to vanish exactly at
zero as the real square root does. -/
theorem C7_energy_series (sq : ℚ → ℚ) (masses : ℕ → ℚ) (pos vel : ℕ → ℕ → Vec2)
    (n T : ℕ) (hsq : ∀ a : ℚ, sq a = 0 ↔ a = 0)
    (hdist : ∀ t < T, ∀ i < n, ∀ j < n, i ≠ j → pos i t ≠ pos j t) :
    ((calculate_energy sq masses pos vel n T).1.length = T)
    ∧ ((calculate_energy sq masses pos vel n T).2.1.length = T)
    ∧ ((calculate_energy sq masses pos vel n T).2.2.length = T)
    ∧ (∀ t < T,
        (calculate_energy sq masses pos vel n T).1.getD t 0
          = 1 / 2 * ∑ i in Finset.range n, masses i * dot (vel i t) (vel i t)
        ∧ (calculate_energy sq masses pos vel n T).2.1.getD t 0
          = -(1 / 2) * ∑ i in Finset.range n, ∑ j in (Finset.range n).erase i,
              masses i * masses j * (1 / sq (dot (pos i t - pos j t) (pos i t - pos j t)))
        ∧ (calculate_energy sq masses pos vel n T).2.2.getD t 0
          = (calculate_energy sq masses pos vel n T).1.getD t 0
            + (calculate_energy sq masses pos vel n T).2.1.getD t 0)
    ∧ (∀ p2 : ℕ → Vec2, ∀ a b : ℕ, p2 a = p2 b → invEntry sq p2 a b = 0) := by
  refine ⟨by simp [calculate_energy], by simp [calculate_energy],
    by simp [calculate_energy], fun t ht => ⟨?_, ?_, ?_⟩, fun p2 a b h => ?_⟩
  · rw [calculate_energy]
    rw [getD_map_range_gen _ ht]
    simp only [getEnergyAt, kinEnergyAt]
    congr 1
    refine Finset.sum_congr rfl fun i _ => ?_
    rw [dot]
    ring
  · rw [calculate_energy]
    rw [getD_map_range_gen _ ht]
    simp only [getEnergyAt]
    exact potEnergyAt_eq sq masses (fun b => pos b t) n hsq (hdist t ht)
  · rw [calculate_energy]
    rw [getD_map_range_gen _ ht, getD_map_range_gen _ ht, getD_map_range_gen _ ht]
  · rw [invEntry, if_neg]
    simp only [ne_eq, not_not]
    rw [h]
    simp [(hsq 0).mpr rfl]

/-- Witness for C7: two bodies at distinct positions over one time step,
with sq = id. -/
theorem C7_witness :
    (calculate_energy id (fun _ => 1) (fun b _ => ((b : ℚ), 0))
      (fun b _ => ((b : ℚ), 0)) 2 1).1.length = 1 :=
  (C7_energy_series id (fun _ => 1) (fun b _ => ((b : ℚ), 0))
    (fun b _ => ((b : ℚ), 0)) 2 1 (fun _ => Iff.rfl) (by decide)).1

/-! ## Mass and center-of-mass invariants of the quadtree (C4) -/

/-- The multiset contribution of a body slot. -/
def bodyMS : Option ℕ → Multiset ℕ
  | none => 0
  | some b => {b}

namespace Quad

/-- The multiset of bodies transitively contained in a quad: its own
occupant plus the bodies of its children. -/
def bodies : Quad → Multiset ℕ
  | .empty => 0
  | .node _ _ _ bd c0 c1 c2 c3 _ _ =>
      bodyMS bd + c0.bodies + c1.bodies + c2.bodies + c3.bodies

/-- All nodes of a quadtree, the quad itself included. -/
def nodes : Quad → List Quad
  | .empty => []
  | .node x y r bd c0 c1 c2 c3 com tm =>
      Quad.node x y r bd c0 c1 c2 c3 com tm ::
        (c0.nodes ++ c1.nodes ++ c2.nodes ++ c3.nodes)

end Quad

/-- The aggregate invariant at one node: the stored total mass is the mass
sum of the contained bodies, and the stored center of mass, weighted by the
total mass, is the corresponding weighted position sum. -/
def NodeOK (ms : ℕ → ℚ) (ps : ℕ → Vec2) (q : Quad) : Prop :=
  q.totalMass = (q.bodies.map ms).sum
  ∧ q.totalMass • q.centerOfMass = (q.bodies.map fun i => ms i • ps i).sum

/-- The aggregate invariant at every node of a tree. -/
def TreeOK (ms : ℕ → ℚ) (ps : ℕ → Vec2) (q : Quad) : Prop :=
  ∀ s ∈ q.nodes, NodeOK ms ps s

/-- Bodies of a 4-tuple of child slots. -/
def bodiesC (cs : Quad × Quad × Quad × Quad) : Multiset ℕ :=
  cs.1.bodies + cs.2.1.bodies + cs.2.2.1.bodies + cs.2.2.2.bodies

/-- Nodes of a 4-tuple of child slots. -/
def nodesC (cs : Quad × Quad × Quad × Quad) : List Quad :=
  cs.1.nodes ++ cs.2.1.nodes ++ cs.2.2.1.nodes ++ cs.2.2.2.nodes

@[simp] lemma isEmptySlot_eq {q : Quad} : q.isEmptySlot = true ↔ q = .empty := by
  cases q <;> simp [Quad.isEmptySlot]

lemma bodies_withChildren (x y r : ℚ) (bd : Option ℕ)
    (cs : Quad × Quad × Quad × Quad) (com : Vec2) (tm : ℚ) :
    (withChildren x y r bd cs com tm).bodies = bodyMS bd + bodiesC cs := by
  obtain ⟨a, b, c, d⟩ := cs
  simp [withChildren, Quad.bodies, bodiesC, add_assoc]

lemma nodes_withChildren (x y r : ℚ) (bd : Option ℕ)
    (cs : Quad × Quad × Quad × Quad) (com : Vec2) (tm : ℚ) :
    (withChildren x y r bd cs com tm).nodes
      = withChildren x y r bd cs com tm :: nodesC cs := by
  obtain ⟨a, b, c, d⟩ := cs
  rfl

@[simp] lemma totalMass_withChildren (x y r : ℚ) (bd : Option ℕ)
    (cs : Quad × Quad × Quad × Quad) (com : Vec2) (tm : ℚ) :
    (withChildren x y r bd cs com tm).totalMass = tm := rfl

@[simp] lemma centerOfMass_withChildren (x y r : ℚ) (bd : Option ℕ)
    (cs : Quad × Quad × Quad × Quad) (com : Vec2) (tm : ℚ) :
    (withChildren x y r bd cs com tm).centerOfMass = com := rfl

lemma bodiesC_updC (i : ℕ) (v a b c d : Quad) :
    bodiesC (updC i v a b c d) + (getC i a b c d).bodies
      = v.bodies + bodiesC (a, b, c, d) := by
  rcases i with _ | _ | _ | i <;> simp [updC, getC, bodiesC] <;> abel

lemma mem_nodesC_updC {s : Quad} (i : ℕ) (v a b c d : Quad)
    (h : s ∈ nodesC (updC i v a b c d)) :
    s ∈ v.nodes ∨ s ∈ nodesC (a, b, c, d) := by
  rcases i with _ | _ | _ | i <;> simp [updC, nodesC] at h ⊢ <;> tauto

lemma mem_nodesC_getC {s : Quad} (i : ℕ) (a b c d : Quad)
    (h : s ∈ (getC i a b c d).nodes) : s ∈ nodesC (a, b, c, d) := by
  rcases i with _ | _ | _ | i <;> simp [getC, nodesC] at h ⊢ <;> tauto

lemma mem_nodes_of_mem_nodesC {s : Quad} (x y r : ℚ) (bd : Option ℕ)
    (a b c d : Quad) (com : Vec2) (tm : ℚ)
    (h : s ∈ nodesC (a, b, c, d)) :
    s ∈ (Quad.node x y r bd a b c d com tm).nodes := by
  simp [Quad.nodes, nodesC] at h ⊢
  tauto

@[simp] lemma bodies_freshChild (x y r : ℚ) (i : ℕ) :
    (freshChild x y r i).bodies = 0 := rfl

@[simp] lemma nodes_freshChild (x y r : ℚ) (i : ℕ) :
    (freshChild x y r i).nodes = [freshChild x y r i] := rfl

lemma nodeOK_freshChild (ms : ℕ → ℚ) (ps : ℕ → Vec2) (x y r : ℚ) (i : ℕ) :
    NodeOK ms ps (freshChild x y r i) := by
  constructor <;>
    simp [freshChild, Quad.init, Quad.totalMass, Quad.centerOfMass, Quad.bodies, bodyMS]

lemma bodies_effChild (x y r : ℚ) (i : ℕ) (a b c d : Quad) :
    (effChild x y r i a b c d).bodies = (getC i a b c d).bodies := by
  rw [effChild]
  split
  · next h =>
    rw [isEmptySlot_eq.mp h]
    rfl
  · rfl

lemma treeOK_effChild (ms : ℕ → ℚ) (ps : ℕ → Vec2) (x y r : ℚ) (i : ℕ)
    (a b c d : Quad)
    (h : ∀ s ∈ nodesC (a, b, c, d), NodeOK ms ps s) :
    TreeOK ms ps (effChild x y r i a b c d) := by
  rw [effChild]
  split
  · intro s hs
    rw [nodes_freshChild] at hs
    simp at hs
    subst hs
    exact nodeOK_freshChild ms ps x y r i
  · intro s hs
    exact h s (mem_nodesC_getC i a b c d hs)

lemma getC_all_empty (i : ℕ) :
    getC i .empty .empty .empty .empty = Quad.empty := by
  rcases i with _ | _ | _ | i <;> rfl

lemma isInternal_false_children {x y r : ℚ} {bd : Option ℕ}
    {a b c d : Quad} {com : Vec2} {tm : ℚ}
    (h : (Quad.node x y r bd a b c d com tm).isInternal = false) :
    a = .empty ∧ b = .empty ∧ c = .empty ∧ d = .empty := by
  simp only [Quad.isInternal, Bool.or_eq_false_iff, Bool.not_eq_false'] at h
  obtain ⟨⟨⟨ha, hb⟩, hc⟩, hd⟩ := h
  exact ⟨isEmptySlot_eq.mp ha, isEmptySlot_eq.mp hb,
    isEmptySlot_eq.mp hc, isEmptySlot_eq.mp hd⟩

lemma smul_vdiv {c : ℚ} (v : Vec2) (h : c ≠ 0) : c • vdiv v c = v := by
  rw [vdiv]
  refine Prod.ext ?_ ?_
  · simp only [Prod.smul_fst, smul_eq_mul]
    rw [mul_comm, div_mul_cancel₀ _ h]
  · simp only [Prod.smul_snd, smul_eq_mul]
    rw [mul_comm, div_mul_cancel₀ _ h]

lemma massSum_nonneg (ms : ℕ → ℚ) (hm : ∀ i, 0 < ms i) (s : Multiset ℕ) :
    0 ≤ (s.map ms).sum :=
  Multiset.sum_nonneg fun x hx => by
    obtain ⟨i, _, rfl⟩ := Multiset.mem_map.mp hx
    exact le_of_lt (hm i)

@[simp] lemma totalMass_node (x y r : ℚ) (bd : Option ℕ) (a b c d : Quad)
    (com : Vec2) (tm : ℚ) :
    (Quad.node x y r bd a b c d com tm).totalMass = tm := rfl

@[simp] lemma centerOfMass_node (x y r : ℚ) (bd : Option ℕ) (a b c d : Quad)
    (com : Vec2) (tm : ℚ) :
    (Quad.node x y r bd a b c d com tm).centerOfMass = com := rfl

lemma bodies_node (x y r : ℚ) (bd : Option ℕ) (a b c d : Quad)
    (com : Vec2) (tm : ℚ) :
    (Quad.node x y r bd a b c d com tm).bodies
      = bodyMS bd + a.bodies + b.bodies + c.bodies + d.bodies := rfl

lemma nodes_node (x y r : ℚ) (bd : Option ℕ) (a b c d : Quad)
    (com : Vec2) (tm : ℚ) :
    (Quad.node x y r bd a b c d com tm).nodes
      = Quad.node x y r bd a b c d com tm
          :: (a.nodes ++ b.nodes ++ c.nodes ++ d.nodes) := rfl

@[simp] lemma addBody_zero (ms : ℕ → ℚ) (ps : ℕ → Vec2) (q : Quad) (b : ℕ) :
    addBody ms ps 0 q b = none := rfl

@[simp] lemma addBody_empty (ms : ℕ → ℚ) (ps : ℕ → Vec2) (f b : ℕ) :
    addBody ms ps (f + 1) .empty b = none := rfl

lemma addBody_node (ms : ℕ → ℚ) (ps : ℕ → Vec2) (f : ℕ) (x y r : ℚ)
    (bd : Option ℕ) (c0 c1 c2 c3 : Quad) (com : Vec2) (tm : ℚ) (b : ℕ) :
    addBody ms ps (f + 1) (Quad.node x y r bd c0 c1 c2 c3 com tm) b =
      if (Quad.node x y r bd c0 c1 c2 c3 com tm).isInternal then
        (addBody ms ps f (effChild x y r (subQuadIndex x y r (ps b)) c0 c1 c2 c3) b).map
          fun ch => withChildren x y r bd
            (updC (subQuadIndex x y r (ps b)) ch c0 c1 c2 c3)
            (vdiv (tm • com + ms b • ps b) (tm + ms b)) (tm + ms b)
      else
        match bd with
        | none => some (.node x y r (some b) c0 c1 c2 c3 (ps b) (ms b))
        | some c =>
          (addBody ms ps f (effChild x y r (subQuadIndex x y r (ps c)) c0 c1 c2 c3) c).bind
            fun ch1 =>
              match updC (subQuadIndex x y r (ps c)) ch1 c0 c1 c2 c3 with
              | (d0, d1, d2, d3) =>
                (addBody ms ps f (effChild x y r (subQuadIndex x y r (ps b)) d0 d1 d2 d3) b).map
                  fun ch2 => withChildren x y r none
                    (updC (subQuadIndex x y r (ps b)) ch2 d0 d1 d2 d3)
                    (vdiv (tm • com + ms b • ps b) (tm + ms b)) (tm + ms b) := rfl

/-- Inserting a body through add_body adds exactly that body to the multiset
of contained bodies and preserves the aggregate invariant at every node. -/
lemma addBody_preserves (ms : ℕ → ℚ) (ps : ℕ → Vec2) (hm : ∀ i, 0 < ms i) :
    ∀ fuel q b q', addBody ms ps fuel q b = some q' → TreeOK ms ps q →
      q'.bodies = {b} + q.bodies ∧ TreeOK ms ps q' := by
  intro fuel
  induction fuel with
  | zero =>
    intro q b q' h _
    rw [addBody_zero] at h
    exact Option.noConfusion h
  | succ f ih =>
    intro q b q' h hT
    match q with
    | .empty =>
      rw [addBody_empty] at h
      exact Option.noConfusion h
    | .node x y r bd c0 c1 c2 c3 com tm =>
      rw [addBody_node] at h
      have hq : NodeOK ms ps (Quad.node x y r bd c0 c1 c2 c3 com tm) :=
        hT _ (by rw [nodes_node]; exact List.mem_cons_self _ _)
      have htm : tm = ((Quad.node x y r bd c0 c1 c2 c3 com tm).bodies.map ms).sum := hq.1
      have hcom : tm • com
          = ((Quad.node x y r bd c0 c1 c2 c3 com tm).bodies.map fun i => ms i • ps i).sum := hq.2
      have htmnn : (0 : ℚ) ≤ tm := htm ▸ massSum_nonneg ms hm _
      have htmne : tm + ms b ≠ 0 := ne_of_gt (by have := hm b; linarith)
      by_cases hint : (Quad.node x y r bd c0 c1 c2 c3 com tm).isInternal = true
      · -- internal node
        rw [if_pos hint] at h
        cases hrec : addBody ms ps f
            (effChild x y r (subQuadIndex x y r (ps b)) c0 c1 c2 c3) b with
        | none =>
          rw [hrec] at h
          exact Option.noConfusion h
        | some ch =>
          rw [hrec] at h
          simp only [Option.map_some'] at h
          have hTC : ∀ s ∈ nodesC (c0, c1, c2, c3), NodeOK ms ps s := fun s hs =>
            hT s (mem_nodes_of_mem_nodesC x y r bd c0 c1 c2 c3 com tm hs)
          obtain ⟨hchb, hchT⟩ := ih (effChild x y r (subQuadIndex x y r (ps b)) c0 c1 c2 c3)
            b ch hrec (treeOK_effChild ms ps x y r _ c0 c1 c2 c3 hTC)
          rw [bodies_effChild] at hchb
          have hupdb : bodiesC (updC (subQuadIndex x y r (ps b)) ch c0 c1 c2 c3)
              = {b} + bodiesC (c0, c1, c2, c3) := by
            have h2 : bodiesC (updC (subQuadIndex x y r (ps b)) ch c0 c1 c2 c3)
                  + (getC (subQuadIndex x y r (ps b)) c0 c1 c2 c3).bodies
                = ({b} + bodiesC (c0, c1, c2, c3))
                  + (getC (subQuadIndex x y r (ps b)) c0 c1 c2 c3).bodies := by
              rw [bodiesC_updC, hchb]
              abel
            exact add_right_cancel h2
          have hbodies : (withChildren x y r bd
                (updC (subQuadIndex x y r (ps b)) ch c0 c1 c2 c3)
                (vdiv (tm • com + ms b • ps b) (tm + ms b)) (tm + ms b)).bodies
              = {b} + (Quad.node x y r bd c0 c1 c2 c3 com tm).bodies := by
            rw [bodies_withChildren, hupdb, bodies_node]
            simp only [bodiesC]
            abel
          have hok : NodeOK ms ps (withChildren x y r bd
              (updC (subQuadIndex x y r (ps b)) ch c0 c1 c2 c3)
              (vdiv (tm • com + ms b • ps b) (tm + ms b)) (tm + ms b)) := by
            constructor
            · rw [totalMass_withChildren, hbodies, Multiset.map_add, Multiset.sum_add,
                Multiset.map_singleton, Multiset.sum_singleton, ← htm]
              ring
            · rw [totalMass_withChildren, centerOfMass_withChildren,
                smul_vdiv _ htmne, hbodies, Multiset.map_add, Multiset.sum_add,
                Multiset.map_singleton, Multiset.sum_singleton, ← hcom]
              abel
          injection h with h2
          subst h2
          refine ⟨hbodies, fun s hs => ?_⟩
          rw [nodes_withChildren] at hs
          rcases List.mem_cons.mp hs with rfl | hs2
          · exact hok
          · rcases mem_nodesC_updC _ ch c0 c1 c2 c3 hs2 with h3 | h3
            · exact hchT s h3
            · exact hT s (mem_nodes_of_mem_nodesC x y r bd c0 c1 c2 c3 com tm h3)
      · -- external node
        rw [if_neg hint] at h
        obtain ⟨he0, he1, he2, he3⟩ :=
          isInternal_false_children (Bool.eq_false_iff.mpr hint)
        subst he0
        subst he1
        subst he2
        subst he3
        cases bd with
        | none =>
          simp only [] at h
          have hq' : q' = Quad.node x y r (some b) .empty .empty .empty .empty
              (ps b) (ms b) := (Option.some.injEq _ _).mp h |>.symm
          subst hq'
          have hb0 : (Quad.node x y r (none : Option ℕ) .empty .empty .empty .empty
              com tm).bodies = 0 := by
            rw [bodies_node]
            simp [bodyMS, Quad.bodies]
          have hok : NodeOK ms ps (Quad.node x y r (some b) .empty .empty .empty .empty
              (ps b) (ms b)) := by
            constructor <;>
              simp [bodies_node, bodyMS, Quad.bodies]
          refine ⟨?_, fun s hs => ?_⟩
          · rw [bodies_node, hb0]
            simp [bodyMS, Quad.bodies]
          · rw [nodes_node] at hs
            simp only [Quad.nodes, List.append_nil, List.nil_append] at hs
            rcases List.mem_cons.mp hs with rfl | hs2
            · exact hok
            · exact absurd hs2 (by simp)
        | some cOld =>
          simp only [] at h
          cases hrec1 : addBody ms ps f
              (effChild x y r (subQuadIndex x y r (ps cOld))
                .empty .empty .empty .empty) cOld with
          | none =>
            rw [hrec1] at h
            exact Option.noConfusion h
          | some ch1 =>
            rw [hrec1] at h
            simp only [Option.some_bind] at h
            rcases hupd : updC (subQuadIndex x y r (ps cOld)) ch1
                .empty .empty .empty .empty with ⟨d0, d1, d2, d3⟩
            rw [hupd] at h
            simp only [] at h
            cases hrec2 : addBody ms ps f
                (effChild x y r (subQuadIndex x y r (ps b)) d0 d1 d2 d3) b with
            | none =>
              rw [hrec2] at h
              exact Option.noConfusion h
            | some ch2 =>
              rw [hrec2] at h
              simp only [Option.map_some'] at h
              -- invariants for the first insertion (of the old occupant)
              have heff1 : effChild x y r (subQuadIndex x y r (ps cOld))
                  .empty .empty .empty .empty
                  = freshChild x y r (subQuadIndex x y r (ps cOld)) := by
                rw [effChild, getC_all_empty]
                simp [Quad.isEmptySlot]
              obtain ⟨hch1b, hch1T⟩ := ih _ cOld ch1 hrec1 (by
                rw [heff1]
                intro s hs
                rw [nodes_freshChild] at hs
                simp at hs
                subst hs
                exact nodeOK_freshChild ms ps x y r _)
              rw [bodies_effChild, getC_all_empty] at hch1b
              have hch1b2 : ch1.bodies = {cOld} := by
                rw [hch1b]
                rfl
              -- nodes of the intermediate children tuple
              have hdnodes : ∀ s ∈ nodesC (d0, d1, d2, d3), NodeOK ms ps s := by
                intro s hs
                rw [← hupd] at hs
                rcases mem_nodesC_updC _ ch1 .empty .empty .empty .empty hs with h3 | h3
                · exact hch1T s h3
                · exact absurd h3 (by simp [nodesC, Quad.nodes])
              -- bodies of the intermediate children tuple
              have hdbodies : bodiesC (d0, d1, d2, d3) = ({cOld} : Multiset ℕ) := by
                have h2 := bodiesC_updC (subQuadIndex x y r (ps cOld)) ch1
                  .empty .empty .empty .empty
                rw [hupd, getC_all_empty, hch1b2] at h2
                simpa [bodiesC, Quad.bodies] using h2
              -- invariants for the second insertion (of the new body)
              obtain ⟨hch2b, hch2T⟩ := ih _ b ch2 hrec2
                (treeOK_effChild ms ps x y r _ d0 d1 d2 d3 hdnodes)
              rw [bodies_effChild] at hch2b
              have hupdb2 : bodiesC (updC (subQuadIndex x y r (ps b)) ch2 d0 d1 d2 d3)
                  = {b} + ({cOld} : Multiset ℕ) := by
                have h2 : bodiesC (updC (subQuadIndex x y r (ps b)) ch2 d0 d1 d2 d3)
                      + (getC (subQuadIndex x y r (ps b)) d0 d1 d2 d3).bodies
                    = ({b} + ({cOld} : Multiset ℕ))
                      + (getC (subQuadIndex x y r (ps b)) d0 d1 d2 d3).bodies := by
                  rw [bodiesC_updC, hch2b, hdbodies]
                  abel
                exact add_right_cancel h2
              have hqbodies : (Quad.node x y r (some cOld) .empty .empty .empty .empty
                  com tm).bodies = ({cOld} : Multiset ℕ) := by
                rw [bodies_node]
                simp [bodyMS, Quad.bodies]
              have hbodies : (withChildren x y r none
                    (updC (subQuadIndex x y r (ps b)) ch2 d0 d1 d2 d3)
                    (vdiv (tm • com + ms b • ps b) (tm + ms b)) (tm + ms b)).bodies
                  = {b} + (Quad.node x y r (some cOld) .empty .empty .empty .empty
                      com tm).bodies := by
                rw [bodies_withChildren, hupdb2, hqbodies]
                simp [bodyMS]
              have hok : NodeOK ms ps (withChildren x y r none
                  (updC (subQuadIndex x y r (ps b)) ch2 d0 d1 d2 d3)
                  (vdiv (tm • com + ms b • ps b) (tm + ms b)) (tm + ms b)) := by
                constructor
                · rw [totalMass_withChildren, hbodies, Multiset.map_add,
                    Multiset.sum_add, Multiset.map_singleton, Multiset.sum_singleton,
                    ← htm]
                  ring
                · rw [totalMass_withChildren, centerOfMass_withChildren,
                    smul_vdiv _ htmne, hbodies, Multiset.map_add, Multiset.sum_add,
                    Multiset.map_singleton, Multiset.sum_singleton, ← hcom]
                  abel
              injection h with h2
              subst h2
              refine ⟨hbodies, fun s hs => ?_⟩
              rw [nodes_withChildren] at hs
              rcases List.mem_cons.mp hs with rfl | hs2
              · exact hok
              · rcases mem_nodesC_updC _ ch2 d0 d1 d2 d3 hs2 with h3 | h3
                · exact hch2T s h3
                · exact hdnodes s h3

lemma eq_vdiv_of_smul_eq {c : ℚ} {v w : Vec2} (hc : c ≠ 0) (h : c • v = w) :
    v = vdiv w c := by
  subst h
  rw [vdiv]
  refine Prod.ext ?_ ?_
  · simp only [Prod.smul_fst, smul_eq_mul]
    exact (mul_div_cancel_left₀ _ hc).symm
  · simp only [Prod.smul_snd, smul_eq_mul]
    exact (mul_div_cancel_left₀ _ hc).symm

/-- Folding a list of insertions adds exactly those bodies and preserves
the aggregate invariant at every node. -/
lemma insertAll_preserves (ms : ℕ → ℚ) (ps : ℕ → Vec2) (hm : ∀ i, 0 < ms i) :
    ∀ L : List ℕ, ∀ fuel q0 q, insertAll ms ps fuel q0 L = some q →
      TreeOK ms ps q0 →
      q.bodies = (L : Multiset ℕ) + q0.bodies ∧ TreeOK ms ps q := by
  intro L
  induction L with
  | nil =>
    intro fuel q0 q h hT
    rw [insertAll] at h
    simp only [List.foldlM_nil] at h
    injection h with h2
    subst h2
    exact ⟨by simp, hT⟩
  | cons a as ihL =>
    intro fuel q0 q h hT
    rw [insertAll] at h
    rw [List.foldlM_cons] at h
    cases h1 : addBody ms ps fuel q0 a with
    | none =>
      rw [h1] at h
      exact Option.noConfusion h
    | some q1 =>
      rw [h1] at h
      simp only [Option.bind_eq_bind', Option.some_bind'] at h
      obtain ⟨hb1, hT1⟩ := addBody_preserves ms ps hm fuel q0 a q1 h1 hT
      obtain ⟨hb2, hT2⟩ := ihL fuel q1 q h hT1
      refine ⟨?_, hT2⟩
      rw [hb2, hb1]
      rw [← Multiset.cons_coe, ← Multiset.singleton_add]
      abel

lemma treeOK_init (ms : ℕ → ℚ) (ps : ℕ → Vec2) (x y size : ℚ) :
    TreeOK ms ps (Quad.init x y size) := by
  intro s hs
  rw [Quad.init, nodes_node] at hs
  simp only [Quad.nodes, List.append_nil, List.nil_append] at hs
  rcases List.mem_cons.mp hs with rfl | hs2
  · constructor <;> simp [bodies_node, bodyMS, Quad.bodies]
  · exact absurd hs2 (by simp)

/-- C4: after inserting any list of bodies with positive masses into a
fresh root via add_body (under exact arithmetic, whenever the insertion
terminates within the given fuel), every node of the resulting tree stores
as total_mass the mass sum of the bodies transitively contained in it and
as center_of_mass their mass-weighted centroid (equivalently, total mass
times center of mass equals the weighted position sum, which also covers
nodes of zero mass); in particular the root total mass is the sum of the
inserted masses and, for a nonempty insertion list, the root center of mass
is the global mass-weighted centroid, for any insertion order. -/
theorem C4_mass_com_tree (ms : ℕ → ℚ) (ps : ℕ → Vec2) (hm : ∀ i, 0 < ms i)
    (x y size : ℚ) (fuel : ℕ) (L : List ℕ) (q : Quad)
    (h : insertAll ms ps fuel (Quad.init x y size) L = some q) :
    (∀ s ∈ q.nodes,
        s.totalMass = (s.bodies.map ms).sum
        ∧ s.totalMass • s.centerOfMass = (s.bodies.map fun i => ms i • ps i).sum
        ∧ (s.totalMass ≠ 0 →
            s.centerOfMass
              = vdiv ((s.bodies.map fun i => ms i • ps i).sum) s.totalMass))
    ∧ q.totalMass = (L.map ms).sum
    ∧ (L ≠ [] → q.centerOfMass
        = vdiv ((L.map fun i => ms i • ps i).sum) ((L.map ms).sum)) := by
  obtain ⟨hbod, hTq⟩ := insertAll_preserves ms ps hm L fuel (Quad.init x y size) q h
    (treeOK_init ms ps x y size)
  have hbod2 : q.bodies = (L : Multiset ℕ) := by
    rw [hbod]
    simp [Quad.init, bodies_node, bodyMS, Quad.bodies]
  have hper : ∀ s ∈ q.nodes,
      s.totalMass = (s.bodies.map ms).sum
      ∧ s.totalMass • s.centerOfMass = (s.bodies.map fun i => ms i • ps i).sum
      ∧ (s.totalMass ≠ 0 →
          s.centerOfMass
            = vdiv ((s.bodies.map fun i => ms i • ps i).sum) s.totalMass) := by
    intro s hs
    obtain ⟨h1, h2⟩ := hTq s hs
    refine ⟨h1, h2, fun hne => ?_⟩
    exact eq_vdiv_of_smul_eq (h1 ▸ hne) h2
  refine ⟨hper, ?_, ?_⟩
  · match q with
    | .empty =>
      have : (L : Multiset ℕ) = 0 := hbod2.symm
      have hL : L = [] := by
        simpa using this
      subst hL
      rfl
    | .node qx qy qr qbd qc0 qc1 qc2 qc3 qcom qtm =>
      have hself := (hTq _ (by rw [nodes_node]; exact List.mem_cons_self _ _)).1
      rw [hself, hbod2, Multiset.map_coe, Multiset.sum_coe]
  · intro hL
    have htm : q.totalMass = (L.map ms).sum := by
      match q with
      | .empty =>
        have : (L : Multiset ℕ) = 0 := hbod2.symm
        exact absurd (by simpa using this) hL
      | .node qx qy qr qbd qc0 qc1 qc2 qc3 qcom qtm =>
        have hself := (hTq _ (by rw [nodes_node]; exact List.mem_cons_self _ _)).1
        rw [hself, hbod2, Multiset.map_coe, Multiset.sum_coe]
    have hpos : 0 < (L.map ms).sum := by
      refine List.sum_pos _ (fun m hmem => ?_) ?_
      · obtain ⟨i, _, rfl⟩ := List.mem_map.mp hmem
        exact hm i
      · simpa using hL
    match q with
    | .empty =>
      have : (L : Multiset ℕ) = 0 := hbod2.symm
      exact absurd (by simpa using this) hL
    | .node qx qy qr qbd qc0 qc1 qc2 qc3 qcom qtm =>
      have hmem : Quad.node qx qy qr qbd qc0 qc1 qc2 qc3 qcom qtm
          ∈ (Quad.node qx qy qr qbd qc0 qc1 qc2 qc3 qcom qtm).nodes := by
        rw [nodes_node]
        exact List.mem_cons_self _ _
      obtain ⟨h1, h2, h3⟩ := hper _ hmem
      have := h3 (by rw [htm]; exact ne_of_gt hpos)
      rw [this, hbod2, Multiset.map_coe, Multiset.sum_coe, h1, hbod2,
        Multiset.map_coe, Multiset.sum_coe]

/-- Witness for C4: inserting the single body 0 of mass 1 at position
(2, 3) into a fresh root with corner (0, 0) and side 10 yields a tree whose
root stores total mass 1 and center of mass (2, 3). -/
theorem C4_witness :
    insertAll (fun _ => 1) (fun _ => ((2 : ℚ), 3)) 1 (Quad.init 0 0 10) [0]
        = some (Quad.node 0 0 (10 / 2) (some 0) .empty .empty .empty .empty (2, 3) 1)
    ∧ (Quad.node 0 0 (10 / 2) (some 0) .empty .empty .empty .empty
        ((2 : ℚ), (3 : ℚ)) 1).totalMass = 1
    ∧ (Quad.node 0 0 (10 / 2) (some 0) .empty .empty .empty .empty
        ((2 : ℚ), (3 : ℚ)) 1).centerOfMass = (2, 3) := by
  have h : insertAll (fun _ => 1) (fun _ => ((2 : ℚ), 3)) 1 (Quad.init 0 0 10) [0]
      = some (Quad.node 0 0 (10 / 2) (some 0) .empty .empty .empty .empty (2, 3) 1) := rfl
  have hc := C4_mass_com_tree (fun _ => 1) (fun _ => ((2 : ℚ), 3))
    (fun _ => one_pos) 0 0 10 1 [0] _ h
  refine ⟨h, ?_, ?_⟩
  · rw [hc.2.1]
    simp
  · rw [hc.2.2 (by simp)]
    norm_num [vdiv]

end NBody
